import Mathlib

/-!
Shallow embedding of `countdown_solver.py`, a solver for the Countdown
numbers puzzle.  Python tuples of numbers are embedded as `List Int`,
the `Calculation` and `Group` classes as structures, the insertion-ordered
`all_groups` dictionary as an association list `List (List Int × Group)`
that is only ever extended at the end, and generators as eagerly produced
lists (in yield order).
-/

set_option maxRecDepth 40000

namespace Countdown

/-- itertools.combinations: all length-`m` subsequences of `l`, in the order
itertools produces them (combinations containing the first element come
first). -/
def combinations : Nat → List Int → List (List Int)
  | 0, _ => [[]]
  | _ + 1, [] => []
  | m + 1, x :: xs => (combinations m xs).map (fun c => x :: c) ++ combinations (m + 1) xs

/-- Class `Calculation`: an expression string, its integer result, and the
`is_singleton` flag. -/
structure Calculation where
  expr : String
  result : Int
  is_singleton : Bool
deriving DecidableEq

/-- `Calculation.singleton`: the calculation of a single number. -/
def Calculation.singleton (n : Int) : Calculation :=
  { expr := toString n, result := n, is_singleton := true }

/-- `Calculation.operations(x, y)`: the generator of (result, operator) pairs,
in yield order.  `%` and `/` on `Int` agree with Python `%` and `//` for the
positive divisors guarded here. -/
def Calculation.operations (x y : Int) : List (Int × String) :=
  [(x + y, "+")]
    ++ (if x > y then [(x - y, "-")] else [])      -- exclude non-positive results
    ++ (if y > 1 ∧ x > 1 then [(x * y, "x")] else [])  -- exclude trivial results
    ++ (if y > 1 ∧ x % y = 0 then [(x / y, "/")] else [])  -- exclude trivial and non-integer results

/-- `Calculation.generate`: swap so the larger result comes first, then emit one
calculation per operation, parenthesising non-singleton sub-expressions. -/
def Calculation.generate (calca calcb : Calculation) : List Calculation :=
  let p := if calca.result < calcb.result then (calcb, calca) else (calca, calcb)
  (Calculation.operations p.1.result p.2.result).map (fun ro =>
    let expr1 := if p.1.is_singleton then p.1.expr else "(" ++ p.1.expr ++ ")"
    let expr2 := if p.2.is_singleton then p.2.expr else "(" ++ p.2.expr ++ ")"
    { expr := expr1 ++ " " ++ ro.2 ++ " " ++ expr2, result := ro.1, is_singleton := false })

/-- Class `Group`: its numbers, its partitions (stored as the value tuples of
the two subgroups, which are the keys of the subgroups in `all_groups`), and
its calculations. -/
structure Group where
  numbers : List Int
  partitions : List (List Int × List Int)
  calculations : List Calculation
deriving DecidableEq

/-- `Group.filtering(iterable, elements)`: remove the elements of `elements`
from `iterable` one at a time, always consuming the first remaining match. -/
def Group.filtering : List Int → List Int → List Int
  | [], _ => []
  | ns, [] => ns
  | n :: ns, k :: ks => if n = k then Group.filtering ns ks else n :: Group.filtering ns (k :: ks)

/-- `Group._halfbinom(n, k)`: `None` for odd `n`, otherwise the running
product `prod = (prod*m)//l` over `zip(reversed(range(n+1-k, n+1)), range(1, k+1))`,
finally halved with `//2`. -/
def Group.halfbinom (n k : Nat) : Option Nat :=
  if n % 2 = 1 then none
  else some ((((List.range' (n + 1 - k) k).reverse.zip (List.range' 1 k)).foldl
      (fun prod ml => prod * ml.1 / ml.2) 1) / 2)

/-- `zip_longest(range((size+1)//2, size), limits)` where
`limits = (halfbinom(size, size//2),)`: the first subgroup size is paired with
the single limit, all later sizes with `None`.  (For the sizes ≥ 2 actually
used the range is never empty.) -/
def Group.sizes_with_limits (size : Nat) : List (Nat × Option Nat) :=
  match List.range' ((size + 1) / 2) (size - (size + 1) / 2) with
  | [] => []
  | m :: ms => (m, Group.halfbinom size (size / 2)) :: ms.map (fun m' => (m', none))

/-- `Group._paired_combinations(numbers, m, limit)`: each combination paired
with its filtered complement; the generator stops after `limit` pairs when a
limit is given (a limit of 0 is never reached, as `cnt` starts at 1). -/
def Group.paired_combinations (numbers : List Int) (m : Nat) (limit : Option Nat) :
    List (List Int × List Int) :=
  let pairs := (combinations m numbers).map
    (fun numbers1 => (numbers1, Group.filtering numbers numbers1))
  match limit with
  | none => pairs
  | some 0 => pairs
  | some (l + 1) => pairs.take (l + 1)

/-- The `unique_numbers` check of `_partition_into_unique_pairs`: pairs whose
first component was already seen are skipped. -/
def Group.unique_first_pairs : List (List Int × List Int) → List (List Int) → List (List Int × List Int)
  | [], _ => []
  | p :: rest, seen =>
    if p.1 ∈ seen then Group.unique_first_pairs rest seen
    else p :: Group.unique_first_pairs rest (p.1 :: seen)

/-- `Group._partition_into_unique_pairs`, producing the pairs of value tuples
in yield order. -/
def Group.partition_into_unique_pairs (numbers : List Int) : List (List Int × List Int) :=
  if numbers.length = 1 then []
  else Group.unique_first_pairs
    ((Group.sizes_with_limits numbers.length).flatMap
      (fun ml => Group.paired_combinations numbers ml.1 ml.2)) []

/-- Lookup `all_groups[numbers]`. -/
def lookup_group (all_groups : List (List Int × Group)) (numbers : List Int) : Option Group :=
  (all_groups.find? (fun e => e.1 == numbers)).map Prod.snd

/-- `all_groups[numbers].calculations` (the key is always present in the runs
the solver performs). -/
def group_calculations (all_groups : List (List Int × Group)) (numbers : List Int) :
    List Calculation :=
  match lookup_group all_groups numbers with
  | some g => g.calculations
  | none => []

/-- `Group._perform_calculations`: the singleton for a group of one number,
otherwise `Calculation.generate` over the cross product of the calculations of
the two subgroups of every partition. -/
def Group.perform_calculations (numbers : List Int) (partitions : List (List Int × List Int))
    (all_groups : List (List Int × Group)) : List Calculation :=
  match numbers with
  | [n] => [Calculation.singleton n]
  | _ => partitions.flatMap (fun p =>
      (group_calculations all_groups p.1).flatMap (fun calc1 =>
        (group_calculations all_groups p.2).flatMap (fun calc2 =>
          Calculation.generate calc1 calc2)))

/-- `Group.__init__`. -/
def Group.make (numbers : List Int) (all_groups : List (List Int × Group)) : Group :=
  let partitions := Group.partition_into_unique_pairs numbers
  { numbers := numbers, partitions := partitions,
    calculations := Group.perform_calculations numbers partitions all_groups }

/-- The body of the inner loop of `Solutions._unique_groups`: skip a value
tuple that is already a key, otherwise insert its new group at the end (Python
dictionaries keep insertion order). -/
def insert_group (all_groups : List (List Int × Group)) (numbers : List Int) :
    List (List Int × Group) :=
  if numbers ∈ all_groups.map Prod.fst then all_groups
  else all_groups ++ [(numbers, Group.make numbers all_groups)]

/-- The inner loop of `Solutions._unique_groups`: all combinations of one
length `m`. -/
def insert_size (all_numbers : List Int) (all_groups : List (List Int × Group)) (m : Nat) :
    List (List Int × Group) :=
  (combinations m all_numbers).foldl insert_group all_groups

/-- `Solutions._unique_groups`: for every length `m` from 1 to `n`, insert a
group for every combination whose value tuple is not yet a key. -/
def Solutions.unique_groups (all_numbers : List Int) : List (List Int × Group) :=
  (List.range' 1 all_numbers.length).foldl (insert_size all_numbers) []

/-- `Solutions.walk`: all calculations of all groups, in dictionary insertion
order. -/
def Solutions.walk (all_groups : List (List Int × Group)) : List Calculation :=
  all_groups.flatMap (fun e => e.2.calculations)

/-- One step of the best-result loop in `countdown_solver`. -/
def scan_step (target : Int) (acc : Int × List Calculation) (calculation : Calculation) :
    Int × List Calculation :=
  let diff := |calculation.result - target|
  if diff ≤ acc.1 then
    if diff < acc.1 then (diff, [calculation]) else (acc.1, acc.2 ++ [calculation])
  else acc

/-- The best-result loop of `countdown_solver`: running minimum initialised to
`target`, best list initialised to `[]`. -/
def scan (target : Int) (calculations : List Calculation) : Int × List Calculation :=
  calculations.foldl (scan_step target) (target, [])

/-- Descending insertion used to model `sorted(·, reverse=True)`. -/
def insert_desc (x : Int) : List Int → List Int
  | [] => [x]
  | y :: ys => if y ≤ x then x :: y :: ys else y :: insert_desc x ys

/-- `sorted(unsorted_numbers, reverse=True)`: the (unique) non-increasing
reordering of an integer list. -/
def sort_desc (l : List Int) : List Int := l.foldr insert_desc []

/-- `countdown_solver` without the CLI and printing: from the target and the
raw numbers, the final `(smallest_difference, bestresults)`. -/
def countdown_solver (target : Int) (unsorted_numbers : List Int) : Int × List Calculation :=
  let numbers := sort_desc unsorted_numbers
  scan target (Solutions.walk (Solutions.unique_groups numbers))

/-- `Solutions.walk` with each calculation tagged by the size of the group that
owns it (the number of source numbers its expression uses). -/
def walk_tagged (all_groups : List (List Int × Group)) : List (Nat × Calculation) :=
  all_groups.flatMap (fun e => e.2.calculations.map (fun c => (e.1.length, c)))

/-- `scan_step` acting on size-tagged calculations (the tag is carried along
and never examined). -/
def scan_step_tagged (target : Int) (acc : Int × List (Nat × Calculation))
    (sc : Nat × Calculation) : Int × List (Nat × Calculation) :=
  let diff := |sc.2.result - target|
  if diff ≤ acc.1 then
    if diff < acc.1 then (diff, [sc]) else (acc.1, acc.2 ++ [sc])
  else acc

/-- `scan` acting on size-tagged calculations. -/
def scan_tagged (target : Int) (calculations : List (Nat × Calculation)) :
    Int × List (Nat × Calculation) :=
  calculations.foldl (scan_step_tagged target) (target, [])

/-! ### General helper lemmas -/

/-- Invariant preservation along a left fold. -/
theorem foldl_induction {α β : Type} (P : β → Prop) (f : β → α → β) :
    ∀ (l : List α) (init : β), P init → (∀ b a, a ∈ l → P b → P (f b a)) →
      P (l.foldl f init) := by
  intro l
  induction l with
  | nil => intro init h _; exact h
  | cons x xs ih =>
    intro init h hstep
    exact ih (f init x) (hstep init x (by simp) h)
      (fun b a ha hb => hstep b a (by simp [ha]) hb)

/-- Membership in a conditionally produced one-element list. -/
theorem mem_if_singleton {α : Type} {c : Prop} [Decidable c] {a b : α} :
    (a ∈ if c then [b] else []) ↔ c ∧ a = b := by
  split <;> simp_all

/-- A list is pairwise related by a relation that always holds. -/
theorem pairwise_rel_of_forall {α : Type} {R : α → α → Prop} (h : ∀ a b, R a b) :
    ∀ l : List α, l.Pairwise R := by
  intro l
  induction l with
  | nil => exact List.Pairwise.nil
  | cons x xs ih => exact List.Pairwise.cons (fun b _ => h x b) ih

/-! ### Lemmas about `combinations` -/

/-- Every element of `combinations m l` is a subsequence of `l`. -/
theorem sublist_of_mem_combinations : ∀ {m : Nat} {l c : List Int},
    c ∈ combinations m l → c.Sublist l := by
  intro m l
  induction l generalizing m with
  | nil =>
    intro c h
    cases m with
    | zero => simp only [combinations, List.mem_singleton] at h; simp [h]
    | succ m => simp [combinations] at h
  | cons x xs ih =>
    intro c h
    cases m with
    | zero =>
      simp only [combinations, List.mem_singleton] at h
      simp [h]
    | succ m =>
      simp only [combinations, List.mem_append, List.mem_map] at h
      rcases h with ⟨c', hc', rfl⟩ | h
      · exact (ih hc').cons₂ x
      · exact (ih h).cons x

/-- Every element of `combinations m l` has length `m`. -/
theorem length_of_mem_combinations : ∀ {m : Nat} {l c : List Int},
    c ∈ combinations m l → c.length = m := by
  intro m l
  induction l generalizing m with
  | nil =>
    intro c h
    cases m with
    | zero => simp only [combinations, List.mem_singleton] at h; simp [h]
    | succ m => simp [combinations] at h
  | cons x xs ih =>
    intro c h
    cases m with
    | zero =>
      simp only [combinations, List.mem_singleton] at h
      simp [h]
    | succ m =>
      simp only [combinations, List.mem_append, List.mem_map] at h
      rcases h with ⟨c', hc', rfl⟩ | h
      · simp [ih hc']
      · exact ih h

/-! ### Lemmas about `sort_desc` -/

theorem mem_insert_desc {a x : Int} : ∀ {l : List Int},
    a ∈ insert_desc x l ↔ a = x ∨ a ∈ l := by
  intro l
  induction l with
  | nil => simp [insert_desc]
  | cons y ys ih =>
    rw [insert_desc]
    split
    · simp
    · simp only [List.mem_cons, ih]
      tauto

theorem mem_sort_desc {a : Int} : ∀ {l : List Int}, a ∈ sort_desc l ↔ a ∈ l := by
  intro l
  induction l with
  | nil => simp [sort_desc]
  | cons x xs ih =>
    simp only [sort_desc, List.foldr_cons, mem_insert_desc, List.mem_cons]
    rw [← sort_desc, ih]

/-! ### Claim C2: the operation generator -/

/-- Claim C2: for positive integers `x ≥ y`, `Calculation.operations` emits
exactly the pairs `(x+y, "+")` always, `(x-y, "-")` iff `x > y`, `(x*y, "x")`
iff `x > 1` and `y > 1`, and the exact quotient `(x/y, "/")` iff `y > 1` and
`y` divides `x`; consequently no multiplication or division has an operand
equal to 1, no subtraction result is zero or negative, and every emitted
quotient is exact. -/
theorem operations_spec (x y : Int) (hy : 0 < y) (hxy : y ≤ x) :
    (∀ r op, (r, op) ∈ Calculation.operations x y ↔
      ((r = x + y ∧ op = "+") ∨
       (y < x ∧ r = x - y ∧ op = "-") ∨
       (1 < x ∧ 1 < y ∧ r = x * y ∧ op = "x") ∨
       (1 < y ∧ y ∣ x ∧ r = x / y ∧ op = "/"))) ∧
    (∀ r op, (r, op) ∈ Calculation.operations x y →
      (op = "-" → 0 < r) ∧
      (op = "x" → 1 < x ∧ 1 < y) ∧
      (op = "/" → 1 < x ∧ 1 < y ∧ y * r = x)) := by
  have hdvd : x % y = 0 ↔ y ∣ x := ⟨Int.dvd_of_emod_eq_zero, Int.emod_eq_zero_of_dvd⟩
  have hchar : ∀ r op, (r, op) ∈ Calculation.operations x y ↔
      ((r = x + y ∧ op = "+") ∨
       (y < x ∧ r = x - y ∧ op = "-") ∨
       (1 < x ∧ 1 < y ∧ r = x * y ∧ op = "x") ∨
       (1 < y ∧ y ∣ x ∧ r = x / y ∧ op = "/")) := by
    intro r op
    simp only [Calculation.operations, List.mem_append, List.mem_singleton,
      mem_if_singleton, Prod.mk.injEq, hdvd, gt_iff_lt]
    constructor
    · rintro (((⟨hr, hop⟩ | ⟨hc, hr, hop⟩) | ⟨⟨hc1, hc2⟩, hr, hop⟩) | ⟨⟨hc1, hc2⟩, hr, hop⟩)
      · exact Or.inl ⟨hr, hop⟩
      · exact Or.inr (Or.inl ⟨hc, hr, hop⟩)
      · exact Or.inr (Or.inr (Or.inl ⟨hc2, hc1, hr, hop⟩))
      · exact Or.inr (Or.inr (Or.inr ⟨hc1, hc2, hr, hop⟩))
    · rintro (⟨hr, hop⟩ | ⟨hc, hr, hop⟩ | ⟨hc1, hc2, hr, hop⟩ | ⟨hc1, hc2, hr, hop⟩)
      · exact Or.inl (Or.inl (Or.inl ⟨hr, hop⟩))
      · exact Or.inl (Or.inl (Or.inr ⟨hc, hr, hop⟩))
      · exact Or.inl (Or.inr ⟨⟨hc2, hc1⟩, hr, hop⟩)
      · exact Or.inr ⟨⟨hc1, hc2⟩, hr, hop⟩
  refine ⟨hchar, fun r op h => ?_⟩
  rcases (hchar r op).1 h with ⟨hr, rfl⟩ | ⟨hc, hr, rfl⟩ | ⟨hc1, hc2, hr, rfl⟩ |
    ⟨hc1, hc2, hr, rfl⟩
  · refine ⟨fun hop => ?_, fun hop => ?_, fun hop => ?_⟩ <;> simp at hop
  · refine ⟨fun _ => ?_, fun hop => ?_, fun hop => ?_⟩
    · omega
    · simp at hop
    · simp at hop
  · refine ⟨fun hop => ?_, fun _ => ⟨hc1, hc2⟩, fun hop => ?_⟩ <;> simp at hop
  · refine ⟨fun hop => ?_, fun hop => ?_, fun _ => ?_⟩
    · simp at hop
    · simp at hop
    · exact ⟨by rcases hc2 with ⟨k, rfl⟩; nlinarith, hc1, by rw [hr]; exact Int.mul_ediv_cancel' hc2⟩

/-- Witness for `operations_spec` at `x = 6`, `y = 2`. -/
theorem operations_spec_witness :
    (((6 : Int) + 2, "+") ∈ Calculation.operations 6 2 ∧
     ((6 : Int) - 2, "-") ∈ Calculation.operations 6 2) ∧
    (((6 : Int) / 2, "/") ∈ Calculation.operations 6 2) := by
  have h := operations_spec 6 2 (by decide) (by decide)
  exact ⟨⟨(h.1 _ "+").2 (Or.inl ⟨rfl, rfl⟩),
          (h.1 _ "-").2 (Or.inr (Or.inl ⟨by decide, rfl, rfl⟩))⟩,
         (h.1 _ "/").2 (Or.inr (Or.inr (Or.inr ⟨by decide, by decide, rfl, rfl⟩)))⟩

/-! ### Claim C7: the multiset complement `Group.filtering` -/

/-- `filtering` always returns a subsequence of the iterable. -/
theorem filtering_sublist : ∀ (l s : List Int), (Group.filtering l s).Sublist l := by
  intro l
  induction l with
  | nil => intro s; cases s <;> simp [Group.filtering]
  | cons n ns ih =>
    intro s
    cases s with
    | nil => simp [Group.filtering]
    | cons k ks =>
      rw [Group.filtering]
      split
      · exact (ih ks).cons n
      · exact (ih (k :: ks)).cons₂ n

/-- When the elements occur as a subsequence, `filtering` removes exactly that
sub-multiset: the parent splits as elements plus remainder. -/
theorem filtering_multiset : ∀ (l s : List Int), s.Sublist l →
    (l : Multiset Int) = (s : Multiset Int) + (Group.filtering l s : Multiset Int) := by
  intro l
  induction l with
  | nil =>
    intro s hs
    rw [List.sublist_nil.1 hs]
    rfl
  | cons n ns ih =>
    intro s hs
    cases s with
    | nil => simp [Group.filtering]
    | cons k ks =>
      rw [Group.filtering]
      split
      · rename_i hnk
        subst hnk
        have hks : ks.Sublist ns := by
          cases hs with
          | cons _ h => exact (List.sublist_cons_self n ks).trans h
          | cons₂ _ h => exact h
        rw [← Multiset.cons_coe, ← Multiset.cons_coe, Multiset.cons_add]
        congr 1
        exact ih ks hks
      · rename_i hnk
        have hsns : (k :: ks).Sublist ns := by
          cases hs with
          | cons _ h => exact h
          | cons₂ _ h => exact absurd rfl hnk
        rw [← Multiset.cons_coe, ← Multiset.cons_coe, ← Multiset.cons_coe, Multiset.add_cons]
        congr 1
        rw [Multiset.cons_coe]
        exact ih (k :: ks) hsns

/-- Claim C7: for a sub-sequence `sub` of `parent`, `Group.filtering` returns
exactly the multiset difference `parent - sub` (one occurrence consumed per
matching value), preserving the relative order of the remaining elements; in
particular filtering `[4,2,1,1]` by `[1]` yields `[4,2,1]`. -/
theorem filtering_spec (parent sub : List Int) (h : sub.Sublist parent) :
    (Group.filtering parent sub).Sublist parent ∧
    (parent : Multiset Int) = (sub : Multiset Int) + (Group.filtering parent sub : Multiset Int) ∧
    (∀ v : Int, (Group.filtering parent sub).count v + sub.count v = parent.count v) ∧
    Group.filtering [4, 2, 1, 1] [1] = [4, 2, 1] := by
  refine ⟨filtering_sublist parent sub, filtering_multiset parent sub h, fun v => ?_, by decide⟩
  have hm := filtering_multiset parent sub h
  have := congrArg (Multiset.count v) hm
  rw [Multiset.count_add, Multiset.coe_count, Multiset.coe_count, Multiset.coe_count] at this
  omega

/-- Witness for `filtering_spec` at `parent = [4,2,1,1]`, `sub = [1]`. -/
theorem filtering_spec_witness :
    Group.filtering [4, 2, 1, 1] [1] = [4, 2, 1] ∧
    (([4, 2, 1, 1] : List Int) : Multiset Int) =
      (([1] : List Int) : Multiset Int) + ((Group.filtering [4, 2, 1, 1] [1] : List Int) : Multiset Int) :=
  ⟨(filtering_spec [4, 2, 1, 1] [1] (by decide)).2.2.2,
   (filtering_spec [4, 2, 1, 1] [1] (by decide)).2.1⟩

/-! ### Claim C1: every emitted calculation has a positive integer result -/

/-- Both operands positive makes every operation result positive. -/
theorem operations_result_pos {x y : Int} (hx : 0 < x) (hy : 0 < y) :
    ∀ ro ∈ Calculation.operations x y, 0 < ro.1 := by
  intro ro h
  simp only [Calculation.operations, List.mem_append, List.mem_singleton,
    mem_if_singleton, gt_iff_lt] at h
  rcases h with ((rfl | ⟨hc, rfl⟩) | ⟨⟨hc1, hc2⟩, rfl⟩) | ⟨⟨hc1, hc2⟩, rfl⟩
  · show 0 < x + y
    omega
  · show 0 < x - y
    omega
  · exact mul_pos hx hy
  · show 0 < x / y
    have hdvd : y ∣ x := Int.dvd_of_emod_eq_zero hc2
    rcases hdvd with ⟨k, rfl⟩
    have hy0 : y ≠ 0 := by omega
    have hk : 0 < k := by nlinarith
    rw [Int.mul_ediv_cancel_left _ hy0]
    exact hk

/-- Both inputs positive makes every generated calculation's result positive. -/
theorem generate_result_pos {a b : Calculation} (ha : 0 < a.result) (hb : 0 < b.result) :
    ∀ c ∈ Calculation.generate a b, 0 < c.result := by
  intro c hc
  simp only [Calculation.generate] at hc
  split at hc <;>
  · rcases List.mem_map.1 hc with ⟨ro, hro, rfl⟩
    exact operations_result_pos (by assumption) (by assumption) ro hro

/-- Positivity of all results in a table transfers through `group_calculations`
lookups. -/
theorem group_calculations_pos {table : List (List Int × Group)}
    (hP : ∀ e ∈ table, ∀ c ∈ e.2.calculations, 0 < c.result) (k : List Int) :
    ∀ c ∈ group_calculations table k, 0 < c.result := by
  intro c hc
  unfold group_calculations lookup_group at hc
  cases hfind : table.find? (fun e => e.1 == k) with
  | none => rw [hfind] at hc; simp at hc
  | some e =>
    rw [hfind] at hc
    exact hP e (List.mem_of_find?_eq_some hfind) c hc

/-- `Group._perform_calculations` only produces positive results when the
table's calculations are positive and the group's numbers are positive. -/
theorem perform_calculations_pos {numbers : List Int} {parts : List (List Int × List Int)}
    {table : List (List Int × Group)}
    (hP : ∀ e ∈ table, ∀ c ∈ e.2.calculations, 0 < c.result)
    (hnum : ∀ n ∈ numbers, 0 < n) :
    ∀ c ∈ Group.perform_calculations numbers parts table, 0 < c.result := by
  intro c hc
  match numbers, hnum, hc with
  | [n], hnum, hc =>
    have h1 : c = Calculation.singleton n := List.mem_singleton.1 hc
    subst h1
    exact hnum n (by simp)
  | [], _, hc =>
    rcases List.mem_flatMap.1 hc with ⟨p, _, hc⟩
    rcases List.mem_flatMap.1 hc with ⟨c1, hc1, hc⟩
    rcases List.mem_flatMap.1 hc with ⟨c2, hc2, hc⟩
    exact generate_result_pos (group_calculations_pos hP p.1 c1 hc1)
      (group_calculations_pos hP p.2 c2 hc2) c hc
  | n1 :: n2 :: rest, _, hc =>
    rcases List.mem_flatMap.1 hc with ⟨p, _, hc⟩
    rcases List.mem_flatMap.1 hc with ⟨c1, hc1, hc⟩
    rcases List.mem_flatMap.1 hc with ⟨c2, hc2, hc⟩
    exact generate_result_pos (group_calculations_pos hP p.1 c1 hc1)
      (group_calculations_pos hP p.2 c2 hc2) c hc

/-- All calculations stored in the table built from positive numbers are
positive. -/
theorem unique_groups_calculations_pos (all_numbers : List Int)
    (hpos : ∀ n ∈ all_numbers, 0 < n) :
    ∀ e ∈ Solutions.unique_groups all_numbers, ∀ c ∈ e.2.calculations, 0 < c.result := by
  unfold Solutions.unique_groups
  refine foldl_induction (fun table => ∀ e ∈ table, ∀ c ∈ e.2.calculations, 0 < c.result)
    (insert_size all_numbers) (List.range' 1 all_numbers.length) [] (by simp) ?_
  intro table m _ hP
  unfold insert_size
  refine foldl_induction (fun table => ∀ e ∈ table, ∀ c ∈ e.2.calculations, 0 < c.result)
    insert_group (combinations m all_numbers) table hP ?_
  intro table' numbers hnum hP'
  unfold insert_group
  split
  · exact hP'
  · intro e he c hc
    rcases List.mem_append.1 he with he | he
    · exact hP' e he c hc
    · rw [List.mem_singleton] at he
      subst he
      have hsub := sublist_of_mem_combinations hnum
      exact perform_calculations_pos hP'
        (fun n hn => hpos n (hsub.subset hn)) c hc

/-- Claim C1: in every run of the engine on a sequence of positive integers,
every calculation ever emitted (the singletons of the size-1 groups and all
combined calculations of the larger groups) has a positive integer result. -/
theorem calculations_positive (unsorted_numbers : List Int)
    (hpos : ∀ n ∈ unsorted_numbers, 0 < n) :
    ∀ c ∈ Solutions.walk (Solutions.unique_groups (sort_desc unsorted_numbers)),
      0 < c.result := by
  intro c hc
  rcases List.mem_flatMap.1 hc with ⟨e, he, hce⟩
  exact unique_groups_calculations_pos (sort_desc unsorted_numbers)
    (fun n hn => hpos n (mem_sort_desc.1 hn)) e he c hce

/-- Witness for `calculations_positive` on the numbers `[3, 2]`. -/
theorem calculations_positive_witness :
    (∀ n ∈ ([3, 2] : List Int), 0 < n) ∧
    ∀ c ∈ Solutions.walk (Solutions.unique_groups (sort_desc [3, 2])), 0 < c.result :=
  ⟨by decide, calculations_positive [3, 2] (by decide)⟩

/-! ### Claim C3: scenario target 15, numbers (7, 5, 3) -/

/-- Claim C3 counterexample: the claimed expression string `"(5 + 7) + 3"` is
never produced — the generator always writes the operand with the larger
result first, so the run emits `"(7 + 5) + 3"` instead. -/
theorem scenarioA_claim_fails :
    "(5 + 7) + 3" ∉ (countdown_solver 15 [7, 5, 3]).2.map Calculation.expr := by
  decide

/-- Claim C3 (amended): for target 15 and numbers (7,5,3) the minimal
difference is 0 and the result list is exactly `"5 x 3"` (size-2 group)
followed by the three size-3 additive variants as the code actually prints
them, `"(7 + 5) + 3"`, `"(7 + 3) + 5"` and `"(5 + 3) + 7"`, the size-2 result
first. -/
theorem scenarioA_results :
    countdown_solver 15 [7, 5, 3] =
      (0, [{ expr := "5 x 3", result := 15, is_singleton := false },
           { expr := "(7 + 5) + 3", result := 15, is_singleton := false },
           { expr := "(7 + 3) + 5", result := 15, is_singleton := false },
           { expr := "(5 + 3) + 7", result := 15, is_singleton := false }]) := by
  decide

/-! ### Claim C4: initialisation of the running minimum -/

/-- Claim C4 counterexample: for the negative target `-1` with numbers `[1]`
the reported minimal difference is `-1`, the raw target — not its absolute
value `1`, and not non-negative. -/
theorem negative_target_diff :
    (countdown_solver (-1) [1]).1 = -1 ∧ ¬ 0 ≤ (countdown_solver (-1) [1]).1 := by
  decide

/-- Claim C4 (amended): the scanner initialises its running minimum to the raw
target value (not its absolute value), and for every non-negative target the
reported minimal difference is non-negative. -/
theorem scan_init_and_nonneg (target : Int) (unsorted_numbers : List Int) :
    scan target [] = (target, []) ∧
    (0 ≤ target → 0 ≤ (countdown_solver target unsorted_numbers).1) := by
  refine ⟨rfl, fun h => ?_⟩
  unfold countdown_solver scan
  refine foldl_induction (fun acc => 0 ≤ acc.1) (scan_step target) _ (target, []) h ?_
  intro b a _ hb
  unfold scan_step
  dsimp only
  split
  · split
    · exact abs_nonneg _
    · exact hb
  · exact hb

/-- Witness for `scan_init_and_nonneg` at `target = 0`, numbers `[1]`. -/
theorem scan_init_and_nonneg_witness :
    scan 0 [] = (0, []) ∧ 0 ≤ (countdown_solver 0 [1]).1 :=
  ⟨(scan_init_and_nonneg 0 [1]).1, (scan_init_and_nonneg 0 [1]).2 (by decide)⟩

/-! ### Claim C6: partition uniqueness fails on duplicate values -/

/-- Claim C6 is violated by the code: for the group `(3, 3, 2, 1)` — built in
any run whose source numbers are `3, 3, 2, 1` — the stored partition list
contains both `((3,2), (3,1))` and `((3,1), (3,2))`, the same unordered pair
twice.  The half-limit of `C(4,2)/2 = 3` lexicographic combinations admits the
value tuple `(3,1)` (3rd combination) whose complement has the same values as
the 2nd combination's first component, so the value-level deduplication does
not catch the swapped duplicate. -/
theorem swapped_partition_stored :
    (([3, 2], [3, 1]) ∈ Group.partition_into_unique_pairs [3, 3, 2, 1] ∧
     ([3, 1], [3, 2]) ∈ Group.partition_into_unique_pairs [3, 3, 2, 1]) ∧
    (Solutions.unique_groups [3, 3, 2, 1]).any (fun e =>
      decide (e.1 = [3, 3, 2, 1] ∧ ([3, 2], [3, 1]) ∈ e.2.partitions ∧
        ([3, 1], [3, 2]) ∈ e.2.partitions)) = true := by
  decide

/-! ### Claim C9: determinism -/

/-- Claim C9: the engine is a pure function of `(target, numbers)` — two runs
on the same input produce identical minimal difference and identical result
lists (the embedding models the insertion-ordered dictionary and all loops
deterministically, exactly as the single-threaded source executes them). -/
theorem countdown_deterministic (target : Int) (numbers : List Int) :
    countdown_solver target numbers = countdown_solver target numbers := rfl

/-! ### Claim C10: the result list can be empty -/

/-- When every calculation's distance to the target exceeds the initial
minimum, the fold never fires and returns the initial accumulator. -/
theorem scan_all_skipped (t : Int) : ∀ l : List Calculation,
    (∀ c ∈ l, t < |c.result - t|) → l.foldl (scan_step t) (t, []) = (t, []) := by
  intro l
  induction l with
  | nil => intro _; rfl
  | cons c cs ih =>
    intro h
    rw [List.foldl_cons]
    have hc := h c (by simp)
    have hstep : scan_step t (t, []) c = (t, []) := by
      unfold scan_step
      dsimp only
      rw [if_neg (not_le.2 hc)]
    rw [hstep]
    exact ih (fun c' hc' => h c' (by simp [hc']))

/-- Claim C10: whenever every emitted calculation's absolute difference from
the target strictly exceeds the initial running minimum (the raw target
value), the scanner returns an empty result list while still reporting the
initial value as the minimal difference. -/
theorem unattainable_target_empty (target : Int) (unsorted_numbers : List Int)
    (h : ∀ c ∈ Solutions.walk (Solutions.unique_groups (sort_desc unsorted_numbers)),
      target < |c.result - target|) :
    countdown_solver target unsorted_numbers = (target, []) := by
  unfold countdown_solver scan
  exact scan_all_skipped target _ h

/-- Witness for `unattainable_target_empty`: target 0 with the positive source
number 2 yields the empty result list with reported difference 0. -/
theorem unattainable_target_empty_witness :
    countdown_solver 0 [2] = (0, []) :=
  unattainable_target_empty 0 [2] (by decide)

/-! ### Claim C8: the half-binomial helper -/

/-- The zipped factor list of `_halfbinom` is `[(n, 1), (n-1, 2), ...]`:
the `j`-th pair (0-based) is `(n - j, j + 1)`. -/
theorem halfbinom_pairs (n : Nat) : ∀ k, k ≤ n →
    (List.range' (n + 1 - k) k).reverse.zip (List.range' 1 k)
      = (List.range k).map (fun j => (n - j, j + 1)) := by
  intro k
  induction k with
  | zero => intro _; rfl
  | succ k ih =>
    intro hk
    have h2 : List.range' (n + 1 - (k + 1)) (k + 1) = (n - k) :: List.range' (n + 1 - k) k := by
      have h1 : n + 1 - (k + 1) = n - k := by omega
      have h3 : n - k + 1 = n + 1 - k := by omega
      rw [h1, List.range'_succ, h3]
    rw [h2, List.reverse_cons, List.range'_concat 1 k, List.zip_append (by simp),
      List.range_succ, List.map_append, ih (by omega)]
    simp [Nat.add_comm]

/-- The running `prod = (prod * m) // l` fold computes the binomial
coefficient exactly (every intermediate division is exact). -/
theorem halfbinom_fold (n : Nat) : ∀ k, k ≤ n →
    ((List.range k).map (fun j => (n - j, j + 1))).foldl
        (fun prod ml => prod * ml.1 / ml.2) 1
      = n.choose k := by
  intro k
  induction k with
  | zero => intro _; simp
  | succ k ih =>
    intro hk
    rw [List.range_succ, List.map_append, List.foldl_append, ih (by omega)]
    show n.choose k * (n - k) / (k + 1) = n.choose (k + 1)
    rw [← Nat.choose_succ_right_eq]
    exact Nat.mul_div_cancel _ (by omega)

/-- The central binomial coefficient of an even positive `n` is even, so its
floor halving loses nothing. -/
theorem choose_half_even (n : Nat) (h0 : 0 < n) (h2 : n % 2 = 0) :
    n.choose (n / 2) % 2 = 0 := by
  obtain ⟨m, rfl⟩ : ∃ m, n = 2 * m := ⟨n / 2, by omega⟩
  obtain ⟨j, rfl⟩ : ∃ j, m = j + 1 := ⟨m - 1, by omega⟩
  have hhalf : 2 * (j + 1) / 2 = j + 1 := by omega
  have hidx : 2 * (j + 1) = 2 * j + 1 + 1 := by ring
  rw [hhalf, hidx, Nat.choose_succ_succ (2 * j + 1) j, Nat.choose_symm_half j]
  omega

/-- For even `n`, `_halfbinom(n, n/2)` is `C(n, n/2) // 2`. -/
theorem halfbinom_even (n : Nat) (h0 : 0 < n) (h2 : n % 2 = 0) :
    Group.halfbinom n (n / 2) = some (n.choose (n / 2) / 2) := by
  unfold Group.halfbinom
  rw [if_neg (by omega), halfbinom_pairs n (n / 2) (by omega),
    halfbinom_fold n (n / 2) (by omega)]

/-- For odd `n`, `_halfbinom(n, n/2)` is `None`. -/
theorem halfbinom_odd (n : Nat) (h : n % 2 = 1) : Group.halfbinom n (n / 2) = none := by
  unfold Group.halfbinom
  rw [if_pos h]

/-- For an odd group size every subgroup size is paired with `None`: no
combination limit is ever applied, so the halving never takes effect. -/
theorem sizes_with_limits_odd (n : Nat) (h : n % 2 = 1) :
    Group.sizes_with_limits n
      = (List.range' ((n + 1) / 2) (n - (n + 1) / 2)).map (fun m => (m, none)) := by
  unfold Group.sizes_with_limits
  cases hr : List.range' ((n + 1) / 2) (n - (n + 1) / 2) with
  | nil => rfl
  | cons m ms => rw [halfbinom_odd n h, List.map_cons]

/-- Claim C8: for every even positive `n` the half-binomial helper at
`(n, n/2)` returns exactly `C(n, n/2) / 2` — the binomial coefficient is even,
so this is an exact halving; for odd `n` it returns `None`, and the partition
builder pairs every subgroup size of an odd-sized group with `None`, so the
halving limit is never applied to odd sizes. -/
theorem halfbinom_spec (n : Nat) :
    (0 < n → n % 2 = 0 →
      Group.halfbinom n (n / 2) = some (n.choose (n / 2) / 2) ∧
      n.choose (n / 2) % 2 = 0) ∧
    (n % 2 = 1 →
      Group.halfbinom n (n / 2) = none ∧
      Group.sizes_with_limits n
        = (List.range' ((n + 1) / 2) (n - (n + 1) / 2)).map (fun m => (m, none))) :=
  ⟨fun h0 h2 => ⟨halfbinom_even n h0 h2, choose_half_even n h0 h2⟩,
   fun h => ⟨halfbinom_odd n h, sizes_with_limits_odd n h⟩⟩

/-- Witness for `halfbinom_spec` at the even size 4 and the odd size 3. -/
theorem halfbinom_spec_witness :
    (Group.halfbinom 4 2 = some (Nat.choose 4 2 / 2) ∧ Nat.choose 4 2 % 2 = 0) ∧
    (Group.halfbinom 3 1 = none ∧
     Group.sizes_with_limits 3 = (List.range' 2 1).map (fun m => (m, none))) :=
  ⟨(halfbinom_spec 4).1 (by decide) (by decide), (halfbinom_spec 3).2 (by decide)⟩

/-! ### Claim C5: results are ordered by the number of source numbers used -/

/-- Inserting all combinations of one length `m` keeps the table sorted by key
length and bounded by `m`, provided it was sorted and bounded by `m` before. -/
theorem insert_size_len_bounded (all_numbers : List Int) (m : Nat)
    (table : List (List Int × Group))
    (hp : table.Pairwise (fun a b => a.1.length ≤ b.1.length))
    (hb : ∀ e ∈ table, e.1.length ≤ m) :
    (insert_size all_numbers table m).Pairwise (fun a b => a.1.length ≤ b.1.length) ∧
    ∀ e ∈ insert_size all_numbers table m, e.1.length ≤ m := by
  unfold insert_size
  refine foldl_induction
    (fun t => t.Pairwise (fun a b => a.1.length ≤ b.1.length) ∧ ∀ e ∈ t, e.1.length ≤ m)
    insert_group (combinations m all_numbers) table ⟨hp, hb⟩ ?_
  intro t numbers hnum ht
  unfold insert_group
  split
  · exact ht
  · have hlen : numbers.length = m := length_of_mem_combinations hnum
    constructor
    · rw [List.pairwise_append]
      refine ⟨ht.1, List.pairwise_singleton _ _, ?_⟩
      intro a ha b hb'
      rw [List.mem_singleton] at hb'
      subst hb'
      simpa [hlen] using ht.2 a ha
    · intro e he
      rcases List.mem_append.1 he with he | he
      · exact ht.2 e he
      · rw [List.mem_singleton] at he
        subst he
        simp [hlen]

/-- Folding over an ascending list of sizes keeps the table sorted by key
length. -/
theorem fold_sizes_len_sorted (all_numbers : List Int) :
    ∀ (ms : List Nat) (table : List (List Int × Group)),
      ms.Pairwise (· ≤ ·) →
      table.Pairwise (fun a b => a.1.length ≤ b.1.length) →
      (∀ e ∈ table, ∀ m ∈ ms, e.1.length ≤ m) →
      (ms.foldl (insert_size all_numbers) table).Pairwise
        (fun a b => a.1.length ≤ b.1.length) := by
  intro ms
  induction ms with
  | nil => intro table _ hp _; exact hp
  | cons m ms ih =>
    intro table hms hp hb
    rw [List.foldl_cons]
    rcases List.pairwise_cons.1 hms with ⟨hm, hms'⟩
    have hinner := insert_size_len_bounded all_numbers m table hp
      (fun e he => hb e he m (by simp))
    exact ih _ hms' hinner.1
      (fun e he m' hm' => le_trans (hinner.2 e he) (hm m' hm'))

/-- The group table is sorted by key length: groups are created in ascending
size order. -/
theorem unique_groups_len_sorted (all_numbers : List Int) :
    (Solutions.unique_groups all_numbers).Pairwise
      (fun a b => a.1.length ≤ b.1.length) := by
  unfold Solutions.unique_groups
  exact fold_sizes_len_sorted all_numbers _ []
    ((List.pairwise_lt_range' 1 all_numbers.length).imp le_of_lt)
    List.Pairwise.nil (by simp)

/-- The size tags along the tagged walk are non-decreasing. -/
theorem walk_tagged_fst_le {table : List (List Int × Group)}
    (h : table.Pairwise (fun a b => a.1.length ≤ b.1.length)) :
    (walk_tagged table).Pairwise (fun a b => a.1 ≤ b.1) := by
  induction table with
  | nil => exact List.Pairwise.nil
  | cons e rest ih =>
    rcases List.pairwise_cons.1 h with ⟨hcross, hrest⟩
    rw [walk_tagged, List.flatMap_cons, List.pairwise_append]
    refine ⟨?_, ih hrest, ?_⟩
    · rw [List.pairwise_map]
      exact pairwise_rel_of_forall (fun _ _ => le_refl _) _
    · intro a ha b hb
      rcases List.mem_map.1 ha with ⟨c, _, rfl⟩
      rcases List.mem_flatMap.1 hb with ⟨e', he', hb'⟩
      rcases List.mem_map.1 hb' with ⟨c', _, rfl⟩
      exact hcross e' he'

/-- The plain walk is the tagged walk with the tags dropped. -/
theorem walk_eq_map_snd (table : List (List Int × Group)) :
    Solutions.walk table = (walk_tagged table).map Prod.snd := by
  induction table with
  | nil => rfl
  | cons e rest ih =>
    have h1 : Solutions.walk (e :: rest) = e.2.calculations ++ Solutions.walk rest :=
      List.flatMap_cons e rest _
    have h2 : walk_tagged (e :: rest)
        = e.2.calculations.map (fun c => (e.1.length, c)) ++ walk_tagged rest :=
      List.flatMap_cons e rest _
    rw [h1, h2, List.map_append, List.map_map, ih]
    congr 1
    simp

/-- The untagged scan fold is the image of the tagged scan fold. -/
theorem scan_foldl_tagged (target : Int) :
    ∀ (l : List (Nat × Calculation)) (acc : Int × List (Nat × Calculation)),
      (l.map Prod.snd).foldl (scan_step target) (acc.1, acc.2.map Prod.snd)
        = ((l.foldl (scan_step_tagged target) acc).1,
           (l.foldl (scan_step_tagged target) acc).2.map Prod.snd) := by
  intro l
  induction l with
  | nil => intro acc; rfl
  | cons sc l ih =>
    intro acc
    rw [List.map_cons, List.foldl_cons, List.foldl_cons]
    have hstep : scan_step target (acc.1, acc.2.map Prod.snd) sc.2
        = ((scan_step_tagged target acc sc).1,
           (scan_step_tagged target acc sc).2.map Prod.snd) := by
      unfold scan_step scan_step_tagged
      dsimp only
      split
      · split
        · rfl
        · rw [List.map_append]
          rfl
      · rfl
    rw [hstep]
    exact ih (scan_step_tagged target acc sc)

/-- The tagged best-result list is a subsequence of the tagged walk. -/
theorem scan_tagged_sublist (target : Int) :
    ∀ (l : List (Nat × Calculation)) (acc : Int × List (Nat × Calculation))
      (P : List (Nat × Calculation)), acc.2.Sublist P →
      ((l.foldl (scan_step_tagged target) acc).2).Sublist (P ++ l) := by
  intro l
  induction l with
  | nil =>
    intro acc P h
    simpa using h
  | cons x xs ih =>
    intro acc P h
    rw [List.foldl_cons]
    have hstep : ((scan_step_tagged target acc x).2).Sublist (P ++ [x]) := by
      unfold scan_step_tagged
      dsimp only
      split
      · split
        · exact List.sublist_append_right P [x]
        · exact h.append (List.Sublist.refl [x])
      · exact h.trans (List.sublist_append_left P [x])
    have hrec := ih (scan_step_tagged target acc x) (P ++ [x]) hstep
    simpa [List.append_assoc] using hrec

/-- Claim C5: tagging every calculation of the final best-result list with the
size of the group it came from (the number of source numbers its expression
uses), the untagged list is exactly the engine's result list, and the size
tags are non-decreasing: every result using `k` numbers appears before every
result using more than `k` numbers. -/
theorem results_size_ordered (target : Int) (unsorted_numbers : List Int) :
    (scan_tagged target
        (walk_tagged (Solutions.unique_groups (sort_desc unsorted_numbers)))).2.map Prod.snd
      = (countdown_solver target unsorted_numbers).2 ∧
    ((scan_tagged target
        (walk_tagged (Solutions.unique_groups (sort_desc unsorted_numbers)))).2.map
          Prod.fst).Pairwise (· ≤ ·) := by
  constructor
  · have h' : ((walk_tagged (Solutions.unique_groups (sort_desc unsorted_numbers))).map
          Prod.snd).foldl (scan_step target) (target, [])
        = (((walk_tagged (Solutions.unique_groups (sort_desc unsorted_numbers))).foldl
              (scan_step_tagged target) (target, [])).1,
           ((walk_tagged (Solutions.unique_groups (sort_desc unsorted_numbers))).foldl
              (scan_step_tagged target) (target, [])).2.map Prod.snd) :=
      scan_foldl_tagged target
        (walk_tagged (Solutions.unique_groups (sort_desc unsorted_numbers))) (target, [])
    show (scan_tagged target
        (walk_tagged (Solutions.unique_groups (sort_desc unsorted_numbers)))).2.map Prod.snd
      = (scan target
          (Solutions.walk (Solutions.unique_groups (sort_desc unsorted_numbers)))).2
    rw [walk_eq_map_snd]
    unfold scan scan_tagged
    rw [h']
  · rw [List.pairwise_map]
    have hwalk := walk_tagged_fst_le
      (unique_groups_len_sorted (sort_desc unsorted_numbers))
    have hsub := scan_tagged_sublist target
      (walk_tagged (Solutions.unique_groups (sort_desc unsorted_numbers)))
      (target, []) [] (List.nil_sublist [])
    rw [List.nil_append] at hsub
    exact hwalk.sublist hsub

end Countdown
